import Mathlib

/-!
# Verification of the fileSyncer reconciliation engine

Shallow embedding of `src/syncer.py`: the ignore matcher
(`should_ignore`, built on Python's `PurePosixPath.match` glob
semantics), the snapshot builder (`get_file_list`), the reconciler
(`determine_action` and the decision loop of `sync_with_peer`), the
transfer executor (`download_file` / `upload_file` effects on the two
trees, and the server's `get_file` / `put_file` endpoints), and the
sync driver (`sync_with_peer`).

File contents are modelled where a claim needs them (strings of bytes);
file metadata is the pair recorded by the snapshot builder
(`st_size`, `int(st_mtime)`).
-/

namespace Syncer

/-- One file's sync-relevant metadata as recorded by `get_file_list`:
`size` is `stat.st_size`, `mtime` is `int(stat.st_mtime)` (whole
seconds). -/
structure FileRecord where
  size : Nat
  mtime : Nat
deriving DecidableEq, Repr

/-- A tree of present files: relative path (forward-slash string) paired
with its metadata.  This is also the shape of a snapshot (a Python dict
mapping relative path to size/mtime). -/
abbrev Tree := List (String × FileRecord)

/-- A tree as seen by the directory walk: an entry whose metadata is
`none` is a file that was enumerated but vanished before `stat()` ran
(the TOCTOU race of claim C8). -/
abbrev RawTree := List (String × Option FileRecord)

/-! ## Glob matching (`fnmatch` on one path component)

Python's `Path(rel_path).match(pat)` splits the pattern into components
and matches each component with `fnmatch` semantics: `*` and `?`
wildcards and `[...]` character classes (`!` negation, `-` ranges, an
unmatched `[` is a literal).  We tokenize a component pattern and run a
standard backtracking matcher over the tokens. -/

/-- Parse the body of a character class after the opening bracket (and
after a leading `!` or a leading literal `]`, both handled by
`parseClass`): returns the character ranges (a lone character `c` is the
range `(c, c)`) and the pattern characters after the closing bracket, or
`none` when the bracket is never closed (then `[` is a literal, as in
`fnmatch.translate`). -/
def classBody : List Char → List (Char × Char) → Option (List (Char × Char) × List Char)
  | [], _ => none
  | [c], acc => if c = ']' then some (acc.reverse, []) else none
  | c :: d :: rest, acc =>
    if c = ']' then some (acc.reverse, d :: rest)
    else if d = '-' then
      match rest with
      | [] => none
      | hi :: rest2 =>
        if hi = ']' then some ((('-', '-') :: (c, c) :: acc).reverse, rest2)
        else classBody rest2 ((c, hi) :: acc)
    else classBody (d :: rest) ((c, c) :: acc)

/-- Parse a full character class starting right after `[`: an optional
leading `!` negates, and a `]` immediately after `[` (or after `[!`) is
a literal member.  Returns `(negated, ranges, rest-of-pattern)`. -/
def parseClass (pp : List Char) : Option (Bool × List (Char × Char) × List Char) :=
  match pp with
  | '!' :: ']' :: t => (classBody t [(']', ']')]).map (fun r => (true, r.1, r.2))
  | '!' :: t => (classBody t []).map (fun r => (true, r.1, r.2))
  | ']' :: t => (classBody t [(']', ']')]).map (fun r => (false, r.1, r.2))
  | t => (classBody t []).map (fun r => (false, r.1, r.2))

/-- One token of a glob component pattern. -/
-- (tokens defined below; `tokenizeF_fuel` shows the fuel-based
-- tokenizer is fuel-independent once the fuel covers the input length)
inductive GlobTok where
  | star
  | que
  | lit (c : Char)
  | cls (neg : Bool) (ranges : List (Char × Char))
deriving DecidableEq, Repr

/-- Tokenize one glob component (fnmatch pattern): `*`, `?`, `[...]`
classes, everything else literal.  Structural recursion on a fuel
counter so the kernel can evaluate it; every step consumes at least one
character (`parseClass_length`), so fuel equal to the input length is
exact — `tokenizeF_fuel` below proves the result is fuel-independent. -/
def tokenizeF : Nat → List Char → List GlobTok
  | 0, _ => []
  | fuel + 1, l =>
    match l with
    | [] => []
    | '*' :: rest => GlobTok.star :: tokenizeF fuel rest
    | '?' :: rest => GlobTok.que :: tokenizeF fuel rest
    | '[' :: rest =>
      match parseClass rest with
      | none => GlobTok.lit '[' :: tokenizeF fuel rest
      | some (neg, rs, rest2) => GlobTok.cls neg rs :: tokenizeF fuel rest2
    | c :: rest => GlobTok.lit c :: tokenizeF fuel rest

/-- Tokenize a glob component pattern. -/
def tokenize (l : List Char) : List GlobTok := tokenizeF l.length l

/-- Does character `c` fall in one of the class ranges? -/
def inRanges (ranges : List (Char × Char)) (c : Char) : Bool :=
  ranges.any (fun r => decide (r.1 ≤ c) && decide (c ≤ r.2))

/-- Match a tokenized glob component against the characters of one path
component (`re.fullmatch` of `fnmatch.translate`, restricted to a single
component as `PurePosixPath.match` does).  `*` becomes `.*`: it matches
when the remaining tokens match some suffix of the remaining input. -/
def tokMatch : List GlobTok → List Char → Bool
  | [], s => s.isEmpty
  | GlobTok.star :: tt, s => s.tails.any (fun s2 => tokMatch tt s2)
  | GlobTok.que :: tt, s =>
    (match s with
     | [] => false
     | _ :: s2 => tokMatch tt s2)
  | GlobTok.lit c :: tt, s =>
    (match s with
     | [] => false
     | c2 :: s2 => c = c2 && tokMatch tt s2)
  | GlobTok.cls neg ranges :: tt, s =>
    (match s with
     | [] => false
     | c :: s2 => (neg != inRanges ranges c) && tokMatch tt s2)

/-- Match one glob component pattern against one path component. -/
def segMatch (p s : List Char) : Bool := tokMatch (tokenize p) s

/-! ## Paths and the ignore matcher -/

/-- Split a character list at `/` separators (accumulator holds the
current component reversed). -/
def splitSegs : List Char → List Char → List (List Char)
  | [], cur => [cur.reverse]
  | c :: rest, cur =>
    if c = '/' then cur.reverse :: splitSegs rest []
    else splitSegs rest (c :: cur)

/-- The components of a path or pattern string, as `PurePosixPath`
normalizes them: split on `/`, dropping empty and `.` components. -/
def pathParts (s : String) : List (List Char) :=
  (splitSegs s.data []).filter (fun c => !(c == []) && !(c == ['.']))

/-- Python's `Path(rel_path).match(pat)` (PurePosixPath, Python ≤ 3.12):
the pattern is parsed as a path; a relative pattern of `n` components
matches iff the path's **last** `n` components match componentwise under
fnmatch glob semantics (right-anchored matching).  An absolute pattern
(leading `/`) never matches the relative paths used by the syncer, and
an empty pattern matches nothing (Python raises `ValueError`;
`load_files_to_ignore` never yields an empty pattern). -/
def pathMatch (rel_path : String) (pat : String) : Bool :=
  if pat.data.head? = some '/' then false
  else if pathParts pat = [] then false
  else if (pathParts rel_path).length < (pathParts pat).length then false
  else
    (List.zip ((pathParts rel_path).drop ((pathParts rel_path).length - (pathParts pat).length))
      (pathParts pat)).all (fun x => segMatch x.2 x.1)

/-- Modelled from the spec's words (§4.1), **not** from the source:
“a path is ignored if it matches any pattern using shell-glob semantics
applied to the path as a whole (directory components included, not just
the basename)” — i.e. `fnmatch` over the entire path string, as claim C7
reads it.  Compared against the source's `should_ignore` (which uses
`Path.match`) in the C7 theorems. -/
def wholePathGlobMatch (rel_path pat : String) : Bool :=
  segMatch pat.data rel_path.data

/-- `should_ignore` from `src/syncer.py` (lines 29-33): true iff the
relative path matches at least one ignore pattern via `Path.match`. -/
def should_ignore (rel_path : String) (ignore_patterns : List String) : Bool :=
  ignore_patterns.any (fun pat => pathMatch rel_path pat)

/-! ## Reconciler -/

/-- `determine_action` from `src/syncer.py` (lines 132-149).  The Python
metadata dicts are never empty, so their truthiness test is exactly the
presence test modelled by `Option`. -/
def determine_action (local_meta peer_meta : Option FileRecord) : Option String :=
  match local_meta, peer_meta with
  | some l, some p =>
    if p.mtime > l.mtime then some "download"
    else if l.mtime > p.mtime then some "upload"
    else none
  | some _, none => some "upload_new"
  | none, some _ => some "download_new"
  | none, none => none

/-- The role-swap mirror of an action: upload ↔ download,
upload_new ↔ download_new, skip ↔ skip. -/
def mirrorAction (a : Option String) : Option String :=
  if a = some "upload" then some "download"
  else if a = some "download" then some "upload"
  else if a = some "upload_new" then some "download_new"
  else if a = some "download_new" then some "upload_new"
  else a

/-! ## Snapshot builder -/

/-- `get_file_list` from `src/syncer.py` (lines 40-55), over a walked
tree.  An entry whose metadata is `none` is a file that vanished between
enumeration and `fpath.stat()`: the Python code has no handler there, so
`stat` raises `FileNotFoundError` and the whole listing aborts — modelled
as `Except.error` carrying the offending path.  Ignored entries are
skipped before `stat` is ever called. -/
def get_file_list (ignore_patterns : List String) : RawTree → Except String Tree
  | [] => .ok []
  | (p, meta) :: rest =>
    if should_ignore p ignore_patterns then get_file_list ignore_patterns rest
    else
      match meta with
      | none => .error p
      | some r => (get_file_list ignore_patterns rest).map (fun l => (p, r) :: l)

/-- The fully-present tree as the walk sees it when no file vanishes. -/
def liftTree (t : Tree) : RawTree := t.map (fun e => (e.1, some e.2))

/-- The non-ignored part of a fully-present tree: what `get_file_list`
returns when nothing vanishes. -/
def filterIgnored (t : Tree) (ignore_patterns : List String) : Tree :=
  t.filter (fun e => !should_ignore e.1 ignore_patterns)

/-! ## Sync driver and transfer executor

`sync_with_peer` (lines 92-129): build the local snapshot, fetch the
peer listing (any exception there is caught: the run reports the
connectivity error and returns without transferring), then walk the
union of paths, re-check the ignore set, decide an action per path and
execute it.  Python iterates a `set`, whose order is unspecified; the
actions are per-path independent, so we fix the deterministic order
"local keys, then peer-only keys".  A transfer failure
(`requests`/`open` raising inside `download_file` / `upload_file`) is
uncaught in the source and aborts the rest of the run; which paths fail
is abstracted by a `fail` predicate. -/

/-- First metadata entry stored under path `p` (dict lookup `d.get(p)`). -/
def lookupRec (t : Tree) (p : String) : Option FileRecord :=
  (t.find? (fun e => e.1 == p)).map (fun e => e.2)

/-- The keys of a snapshot or tree, in order. -/
def keys (t : Tree) : List String := t.map (fun e => e.1)

/-- `set(local_files).union(set(peer_files))` (line 104), in the fixed
order "local keys, then peer-only keys". -/
def unionPaths (local_files peer_files : Tree) : List String :=
  keys local_files ++ (keys peer_files).filter (fun q => !(keys local_files).contains q)

/-- The non-skip actions decided by the loop of `sync_with_peer`
(lines 106-115): drop ignored paths, classify the rest, keep the
non-`None` actions with their paths. -/
def decideActions (local_files peer_files : Tree) (patterns : List String) :
    List (String × String) :=
  (unionPaths local_files peer_files).filterMap (fun path =>
    if should_ignore path patterns then none
    else (determine_action (lookupRec local_files path) (lookupRec peer_files path)).map
      (fun a => (path, a)))

/-- Store a record under a path: overwrite in place if present, append
otherwise (a filesystem write, and the server's dict/file store). -/
def setFile : Tree → String → FileRecord → Tree
  | [], p, r => [(p, r)]
  | e :: rest, p, r => if e.1 = p then (p, r) :: rest else e :: setFile rest p r

/-- The body the server returns for `/get` of a missing file
(`return ⟨"error": "file not found"⟩` serialized by FastAPI). -/
def notFoundBody : String := "\x7b\"error\":\"file not found\"\x7d"

/-- Effect of executing one decided action at time `now` on the pair
(local tree, peer tree).  A download writes the fetched bytes to the
local path — the new local file is stamped with the write time `now`,
not the peer's mtime (`download_file`, lines 152-157, has no
`os.utime`); if the peer no longer has the file, the error body is
written verbatim (claim C10).  An upload posts the local bytes and the
server writes them at its own time `now` (`put_file`, lines 78-84); a
vanished local source makes `open` raise, which the `fail` predicate of
`execActions` models, so that branch is a no-op here. -/
def execOne (now : Nat) (st : Tree × Tree) (pa : String × String) : Tree × Tree :=
  if pa.2 = "download" ∨ pa.2 = "download_new" then
    match lookupRec st.2 pa.1 with
    | some r => (setFile st.1 pa.1 ⟨r.size, now⟩, st.2)
    | none => (setFile st.1 pa.1 ⟨notFoundBody.length, now⟩, st.2)
  else
    match lookupRec st.1 pa.1 with
    | some r => (st.1, setFile st.2 pa.1 ⟨r.size, now⟩)
    | none => st

/-- Execute the decided actions in order.  Returns the final state, the
actions whose transfers completed, and the path of the transfer whose
exception aborted the run, if any (the source catches nothing around
`download_file` / `upload_file`, so the first failure stops the loop). -/
def execActions (now : Nat) (fail : String → Bool) :
    Tree × Tree → List (String × String) → (Tree × Tree) × List (String × String) × Option String
  | st, [] => (st, [], none)
  | st, pa :: rest =>
    if fail pa.1 then (st, [], some pa.1)
    else
      let res := execActions now fail (execOne now st pa) rest
      (res.1, pa :: res.2.1, res.2.2)

/-- Failure-free execution: fold the per-action effect. -/
def execList (now : Nat) (st : Tree × Tree) (l : List (String × String)) : Tree × Tree :=
  l.foldl (execOne now) st

/-- Observable outcome of one `sync_with_peer` run: the two trees, the
transfers that completed, whether the run stopped at the connectivity
error print (lines 100-102), and the path of an uncaught per-file
transfer exception, if one aborted the run. -/
structure SyncResult where
  local_tree : Tree
  peer_tree : Tree
  executed : List (String × String)
  connect_error : Bool
  transfer_error : Option String
deriving DecidableEq, Repr

/-- `sync_with_peer` (lines 92-129).  `peerResp` is the outcome of the
`requests.get(peer_url + "/list")` call of the `try` block: `.error`
when it raised (connection failure, timeout, bad JSON) — then the run
prints the connectivity error and returns having transferred nothing.
The local snapshot is built first (line 95, outside the `try`); a
`stat` race there would propagate, hence the outer `Except`. -/
def sync_with_peer (now : Nat) (fail : String → Bool) (localTree peerTree : Tree)
    (peerResp : Except String Tree) (patterns : List String) : Except String SyncResult :=
  match get_file_list patterns (liftTree localTree) with
  | .error e => .error e
  | .ok local_files =>
    match peerResp with
    | .error _ => .ok ⟨localTree, peerTree, [], true, none⟩
    | .ok peer_files =>
      let res := execActions now fail (localTree, peerTree)
        (decideActions local_files peer_files patterns)
      .ok ⟨res.1.1, res.1.2, res.2.1, false, res.2.2⟩

/-! ## Server endpoints over raw file contents

For claims about bytes (C9, C10) the filesystem is a map from
**resolved absolute path segments** to content strings; the server's
root folder is a segment list.  `folder / file_path` followed by the
OS's path resolution is modelled by concatenating the segments and
resolving `..`/`.` (symlinks aside). -/

/-- The segments of a request path: split on `/`. -/
def segsOf (s : String) : List String :=
  (splitSegs s.data []).map (fun cs => String.mk cs)

/-- POSIX resolution of a segment list: `..` pops the last kept segment,
`.` and empty segments vanish. -/
def resolveSegs (segs : List String) : List String :=
  segs.foldl
    (fun acc s =>
      if s = ".." then acc.dropLast
      else if s = "." ∨ s = "" then acc
      else acc ++ [s])
    []

/-- A content-level filesystem: resolved absolute segments ↦ bytes. -/
abbrev ContentFS := List (List String × String)

/-- Content stored at a path. -/
def lookupContent (fs : ContentFS) (p : List String) : Option String :=
  (fs.find? (fun e => e.1 == p)).map (fun e => e.2)

/-- Write content at a path (overwrite or create, parents implicit —
both endpoints call `mkdir(parents=True)` / rely on `FileResponse`). -/
def setContent : ContentFS → List String → String → ContentFS
  | [], p, c => [(p, c)]
  | e :: rest, p, c => if e.1 = p then (p, c) :: rest else e :: setContent rest p c

/-- The filesystem target the server touches for a request path:
`folder / file_path`, resolved.  No validation, no ignore check. -/
def joinedTarget (root : List String) (file_path : String) : List String :=
  resolveSegs (root ++ segsOf file_path)

/-- The server's `GET /get/⟨file_path⟩` handler (lines 71-76): status
and body.  An existing file is served (FileResponse, status 200); a
missing one yields the JSON error dict, which FastAPI also serializes
with status 200. -/
def get_file (fs : ContentFS) (root : List String) (file_path : String) : Nat × String :=
  match lookupContent fs (joinedTarget root file_path) with
  | some content => (200, content)
  | none => (200, notFoundBody)

/-- The server's `POST /put/⟨file_path⟩` handler (lines 78-84): create
parent directories and write the uploaded bytes at `folder / file_path`.
No validation, no ignore check. -/
def put_file (fs : ContentFS) (root : List String) (file_path : String) (content : String) :
    ContentFS :=
  setContent fs (joinedTarget root file_path) content

/-- `download_file` (lines 152-157) at the byte level: fetch
`/get/⟨path⟩` and write `r.content` — the response body, whatever it is,
with no status or error check — verbatim to the local path. -/
def download_file (fs : ContentFS) (root : List String) (path : String)
    (localFs : ContentFS) (localTarget : List String) : ContentFS :=
  setContent localFs localTarget (get_file fs root path).2

/-! ## Supporting lemmas -/

theorem classBody_length (l : List Char) (acc : List (Char × Char)) :
    ∀ r, classBody l acc = some r → r.2.length < l.length := by
  induction l, acc using classBody.induct with
  | case1 acc => intro r h; simp [classBody.eq_def] at h
  | case2 acc => intro r h; simp [classBody.eq_def] at h; subst h; simp
  | case3 c acc hc => intro r h; simp [classBody.eq_def, hc] at h
  | case4 d rest acc =>
    intro r h
    simp [classBody.eq_def] at h
    subst h
    simp only [List.length_cons]
    omega
  | case5 c acc hc => intro r h; simp [classBody.eq_def, hc] at h
  | case6 c acc hc rest2 =>
    intro r h
    simp [classBody.eq_def, hc] at h
    subst h
    simp only [List.length_cons]
    omega
  | case7 c acc hc hi rest2 hhi ih =>
    intro r h
    rw [classBody.eq_def] at h
    simp [hc, hhi] at h
    have := ih r h
    simp only [List.length_cons]
    omega
  | case8 c d rest acc hc hd ih =>
    intro r h
    rw [classBody.eq_def] at h
    simp [hc, hd] at h
    have := ih r h
    simp only [List.length_cons] at this ⊢
    omega

theorem parseClass_length (pp : List Char) (x : Bool × List (Char × Char) × List Char)
    (h : parseClass pp = some x) : x.2.2.length < pp.length := by
  unfold parseClass at h
  split at h <;>
    · rw [Option.map_eq_some'] at h
      obtain ⟨r, hcb, hx⟩ := h
      have hlen := classBody_length _ _ _ hcb
      subst hx
      simp only [List.length_cons] at hlen ⊢
      omega

theorem tokenizeF_fuel :
    ∀ (fuel : Nat) (l : List Char), l.length ≤ fuel →
      tokenizeF fuel l = tokenizeF l.length l := by
  intro fuel
  induction fuel using Nat.strong_induction_on with
  | _ fuel ih =>
    intro l hl
    cases fuel with
    | zero =>
      have : l = [] := List.eq_nil_of_length_eq_zero (Nat.le_zero.mp hl)
      subst this
      rfl
    | succ fuel =>
      cases l with
      | nil => rfl
      | cons c rest =>
        simp only [List.length_cons] at hl ⊢
        by_cases h1 : c = '*'
        · subst h1
          simp only [tokenizeF]
          rw [ih fuel (by omega) rest (by omega)]
        · by_cases h2 : c = '?'
          · subst h2
            simp only [tokenizeF]
            rw [ih fuel (by omega) rest (by omega)]
          · by_cases h3 : c = '['
            · subst h3
              simp only [tokenizeF]
              cases hpc : parseClass rest with
              | none =>
                simp only [hpc]
                rw [ih fuel (by omega) rest (by omega)]
              | some x =>
                obtain ⟨neg, rs, rest2⟩ := x
                have hlen := parseClass_length rest _ hpc
                simp only at hlen
                simp only [hpc]
                rw [ih fuel (by omega) rest2 (by omega),
                  ih rest.length (by omega) rest2 (by omega)]
            · simp only [tokenizeF, h1, h2, h3]
              rw [ih fuel (by omega) rest (by omega)]

theorem get_file_list_lift (t : Tree) (pats : List String) :
    get_file_list pats (liftTree t) = .ok (filterIgnored t pats) := by
  induction t with
  | nil => rfl
  | cons e rest ih =>
    by_cases hig : should_ignore e.1 pats <;>
      simp [liftTree, get_file_list, filterIgnored, hig] at ih ⊢ <;>
      simp [ih, Except.map]

theorem lookupContent_cons (e : List String × String) (l : ContentFS) (p : List String) :
    lookupContent (e :: l) p = if e.1 = p then some e.2 else lookupContent l p := by
  by_cases he : e.1 = p <;> simp [lookupContent, List.find?_cons, he]

theorem lookupRec_cons (e : String × FileRecord) (l : Tree) (p : String) :
    lookupRec (e :: l) p = if e.1 = p then some e.2 else lookupRec l p := by
  by_cases he : e.1 = p <;> simp [lookupRec, List.find?_cons, he]

theorem lookupContent_setContent_self (fs : ContentFS) (p : List String) (c : String) :
    lookupContent (setContent fs p c) p = some c := by
  induction fs with
  | nil => simp [setContent, lookupContent_cons, lookupContent]
  | cons e rest ih =>
    by_cases he : e.1 = p
    · simp [setContent, he, lookupContent_cons]
    · simp [setContent, he, lookupContent_cons, ih]

theorem lookupRec_setFile_self (t : Tree) (p : String) (r : FileRecord) :
    lookupRec (setFile t p r) p = some r := by
  induction t with
  | nil => simp [setFile, lookupRec_cons, lookupRec]
  | cons e rest ih =>
    by_cases he : e.1 = p
    · simp [setFile, he, lookupRec_cons]
    · simp [setFile, he, lookupRec_cons, ih]

theorem lookupRec_setFile_other (t : Tree) (p q : String) (r : FileRecord) (hpq : q ≠ p) :
    lookupRec (setFile t p r) q = lookupRec t q := by
  induction t with
  | nil => simp [setFile, lookupRec_cons, lookupRec, Ne.symm hpq]
  | cons e rest ih =>
    by_cases he : e.1 = p
    · subst he
      simp [setFile, lookupRec_cons, Ne.symm hpq]
    · simp [setFile, he, lookupRec_cons, ih]

theorem lookupRec_some_mem (t : Tree) (p : String) (r : FileRecord)
    (h : lookupRec t p = some r) : (p, r) ∈ t := by
  induction t with
  | nil => simp [lookupRec] at h
  | cons e rest ih =>
    rw [lookupRec_cons] at h
    by_cases he : e.1 = p
    · rw [if_pos he] at h
      injection h with h
      rw [← he, ← h]
      simp
    · rw [if_neg he] at h
      exact List.mem_cons_of_mem _ (ih h)

theorem lookupRec_some_mem_keys (t : Tree) (p : String) (r : FileRecord)
    (h : lookupRec t p = some r) : p ∈ keys t := by
  have := lookupRec_some_mem t p r h
  exact List.mem_map_of_mem (fun e => e.1) this

theorem lookupRec_filterIgnored (t : Tree) (pats : List String) (p : String) :
    lookupRec (filterIgnored t pats) p =
      if should_ignore p pats then none else lookupRec t p := by
  induction t with
  | nil => simp [filterIgnored, lookupRec]
  | cons e rest ih =>
    simp only [filterIgnored, List.filter_cons] at ih ⊢
    by_cases hig : should_ignore e.1 pats
    · simp only [hig, Bool.not_true, ite_false, if_false, Bool.false_eq_true]
      rw [ih]
      by_cases hep : e.1 = p
      · subst hep
        simp [lookupRec_cons, hig]
      · simp [lookupRec_cons, hep]
    · simp only [hig, Bool.not_false, ite_true, if_true]
      rw [lookupRec_cons]
      by_cases hep : e.1 = p
      · subst hep
        simp [lookupRec_cons, hig]
      · rw [if_neg hep, ih, lookupRec_cons, if_neg hep]

/-- `Path.match` as right-anchored componentwise matching: the pattern's
components must glob-match the path's **trailing** components. -/
theorem pathMatch_iff_trailing (p pat : String) :
    pathMatch p pat = true ↔
      pat.data.head? ≠ some '/' ∧ pathParts pat ≠ [] ∧
        ∃ pre suff, pathParts p = pre ++ suff ∧
          suff.length = (pathParts pat).length ∧
          (List.zip suff (pathParts pat)).all (fun x => segMatch x.2 x.1) = true := by
  unfold pathMatch
  by_cases h1 : pat.data.head? = some '/'
  · simp [h1]
  · by_cases h2 : pathParts pat = []
    · simp [h1, h2]
    · by_cases h3 : (pathParts p).length < (pathParts pat).length
      · simp only [h1, h2, h3, if_true, if_false, if_neg, ite_true, ite_false]
        simp only [Bool.false_eq_true, false_iff]
        rintro ⟨-, -, pre, suff, hsplit, hlen, -⟩
        have : (pathParts p).length = pre.length + suff.length := by
          rw [hsplit, List.length_append]
        omega
      · simp only [h1, h2, h3, ite_true, ite_false, if_neg, if_false]
        constructor
        · intro hall
          refine ⟨h1, h2, (pathParts p).take ((pathParts p).length - (pathParts pat).length),
            (pathParts p).drop ((pathParts p).length - (pathParts pat).length),
            (List.take_append_drop _ _).symm, ?_, hall⟩
          rw [List.length_drop]
          omega
        · rintro ⟨-, -, pre, suff, hsplit, hlen, hall⟩
          rw [hsplit]
          have hdrop : (pre ++ suff).length - (pathParts pat).length = pre.length := by
            rw [List.length_append]
            omega
          rw [hdrop, List.drop_left]
          exact hall

/-- Membership in the decided-action list, characterized. -/
theorem mem_decideActions (lf pf : Tree) (pats : List String) (p a : String) :
    (p, a) ∈ decideActions lf pf pats ↔
      p ∈ unionPaths lf pf ∧ should_ignore p pats = false ∧
        determine_action (lookupRec lf p) (lookupRec pf p) = some a := by
  unfold decideActions
  rw [List.mem_filterMap]
  constructor
  · rintro ⟨q, hq, hf⟩
    by_cases hig : should_ignore q pats
    · simp [hig] at hf
    · rw [if_neg (by simp [hig])] at hf
      rw [Option.map_eq_some'] at hf
      obtain ⟨b, hb, hqb⟩ := hf
      obtain ⟨h1, h2⟩ := Prod.mk.injEq .. ▸ hqb
      subst h1
      subst h2
      exact ⟨hq, by simpa using hig, hb⟩
  · rintro ⟨hmem, hig, hdet⟩
    exact ⟨p, hmem, by simp [hig, hdet]⟩

/-- Every executed transfer comes from the decided list. -/
theorem execActions_executed_mem (now : Nat) (fail : String → Bool) :
    ∀ (l : List (String × String)) (st : Tree × Tree) (x : String × String),
      x ∈ (execActions now fail st l).2.1 → x ∈ l := by
  intro l
  induction l with
  | nil => intro st x hx; simp [execActions] at hx
  | cons pa rest ih =>
    intro st x hx
    by_cases hf : fail pa.1
    · simp [execActions, hf] at hx
    · simp only [execActions, hf, Bool.false_eq_true, ite_false, if_neg] at hx
      rcases List.mem_cons.mp hx with h | h
      · exact List.mem_cons.mpr (Or.inl h)
      · exact List.mem_cons.mpr (Or.inr (ih _ x h))

/-! ## Claim theorems -/

/-- C1: `determine_action` classifies exactly as claimed — both present
and peer mtime greater gives "download", both present and local mtime
greater gives "upload", both present with equal mtimes gives skip
(`none`) regardless of any difference in sizes (the records carry
arbitrary sizes that the comparison never reads), present only locally
gives "upload_new", present only on the peer gives "download_new". -/
theorem determine_action_classification (l p : FileRecord) :
    (p.mtime > l.mtime → determine_action (some l) (some p) = some "download") ∧
    (l.mtime > p.mtime → determine_action (some l) (some p) = some "upload") ∧
    (l.mtime = p.mtime → determine_action (some l) (some p) = none) ∧
    determine_action (some l) none = some "upload_new" ∧
    determine_action none (some p) = some "download_new" := by
  refine ⟨fun h => ?_, fun h => ?_, fun h => ?_, rfl, rfl⟩
  · simp [determine_action, h]
  · simp [determine_action, h, Nat.lt_asymm h]
  · simp [determine_action, h, Nat.lt_irrefl]

theorem determine_action_classification_witness :
    determine_action (some ⟨1, 5⟩) (some ⟨2, 9⟩) = some "download" ∧
    determine_action (some ⟨1, 9⟩) (some ⟨2, 5⟩) = some "upload" ∧
    determine_action (some ⟨1, 7⟩) (some ⟨2, 7⟩) = none :=
  ⟨(determine_action_classification ⟨1, 5⟩ ⟨2, 9⟩).1 (by decide),
   (determine_action_classification ⟨1, 9⟩ ⟨2, 5⟩).2.1 (by decide),
   (determine_action_classification ⟨1, 7⟩ ⟨2, 7⟩).2.2.1 rfl⟩

/-- C3: reconciliation is symmetric under role swap — for every pair of
optional records, `determine_action a b` is the mirror of
`determine_action b a` (upload ↔ download, upload_new ↔ download_new,
skip ↔ skip). -/
theorem determine_action_role_swap (a b : Option FileRecord) :
    determine_action a b = mirrorAction (determine_action b a) := by
  cases a with
  | none =>
    cases b with
    | none => rfl
    | some p => rfl
  | some l =>
    cases b with
    | none => rfl
    | some p =>
      rcases Nat.lt_trichotomy l.mtime p.mtime with h | h | h
      · have h2 : ¬p.mtime < l.mtime := Nat.lt_asymm h
        simp only [determine_action, gt_iff_lt, h, h2, ite_true, ite_false, if_pos, if_neg]
        rfl
      · simp only [determine_action, gt_iff_lt, h, Nat.lt_irrefl, ite_false, if_neg]
        rfl
      · have h2 : ¬l.mtime < p.mtime := Nat.lt_asymm h
        simp only [determine_action, gt_iff_lt, h, h2, ite_true, ite_false, if_pos, if_neg]
        rfl

/-- C5: if the peer's metadata-listing call fails (any exception from
`requests.get`/`r.json()`), the run reports the connectivity error and
returns before any transfer: no `upload_file` or `download_file` call is
made and both trees are untouched — it never syncs from the local
snapshot alone. -/
theorem sync_with_peer_connectivity_failure (now : Nat) (fail : String → Bool)
    (localT peerT : Tree) (e : String) (pats : List String) :
    sync_with_peer now fail localT peerT (.error e) pats =
      .ok ⟨localT, peerT, [], true, none⟩ := by
  unfold sync_with_peer
  rw [get_file_list_lift]

/-- C7 counterexample: `should_ignore` is **not** whole-path shell-glob
matching.  `Path("a/sub/x").match("sub/*")` is true (right-anchored),
while the pattern `sub/*` does not match the whole path `a/sub/x` under
any whole-path glob reading, so the claimed iff fails at this input. -/
theorem should_ignore_whole_path_counterexample :
    should_ignore "a/sub/x" ["sub/*"] = true ∧
    wholePathGlobMatch "a/sub/x" "sub/*" = false := by
  exact ⟨by decide, by decide⟩

/-- C7 (amended): `should_ignore path patterns` is true iff at least one
pattern matches the path under Python `Path.match` semantics: the
pattern (relative, non-empty) is split into components and matched
**right-anchored** against the trailing components of the path, each
component under shell-glob (`fnmatch`) semantics; a path matching no
pattern this way is never ignored. -/
theorem should_ignore_iff_trailing_components (p : String) (pats : List String) :
    should_ignore p pats = true ↔
      ∃ pat ∈ pats, pat.data.head? ≠ some '/' ∧ pathParts pat ≠ [] ∧
        ∃ pre suff, pathParts p = pre ++ suff ∧
          suff.length = (pathParts pat).length ∧
          (List.zip suff (pathParts pat)).all (fun x => segMatch x.2 x.1) = true := by
  unfold should_ignore
  rw [List.any_eq_true]
  constructor
  · rintro ⟨pat, hmem, hm⟩
    exact ⟨pat, hmem, (pathMatch_iff_trailing p pat).mp hm⟩
  · rintro ⟨pat, hmem, hm⟩
    exact ⟨pat, hmem, (pathMatch_iff_trailing p pat).mpr hm⟩

/-- C8 counterexample: a file vanishing between enumeration and `stat`
is **not** silently omitted — `get_file_list` has no handler around
`fpath.stat()`, so the listing aborts and no snapshot of the remaining
files is returned. -/
theorem get_file_list_race_counterexample :
    get_file_list [] [("a.txt", none), ("b.txt", some ⟨1, 1⟩)] = .error "a.txt" ∧
    ¬∃ s : Tree, get_file_list [] [("a.txt", none), ("b.txt", some ⟨1, 1⟩)] = .ok s := by
  refine ⟨rfl, ?_⟩
  rintro ⟨s, hs⟩
  rw [show get_file_list [] [("a.txt", none), ("b.txt", some ⟨1, 1⟩)] = .error "a.txt" from rfl]
    at hs
  exact Except.noConfusion hs

/-- C8 (amended): if any non-ignored file vanishes between enumeration
and the metadata read, `get_file_list` aborts the whole snapshot with
the propagated `stat` error instead of returning the remaining files.
(A vanished entry that matches the ignore set is skipped before `stat`
and cannot abort the walk.) -/
theorem get_file_list_race_aborts (pats : List String) (raw : RawTree) (p : String)
    (hmem : (p, (none : Option FileRecord)) ∈ raw)
    (hig : should_ignore p pats = false) :
    ∃ q, get_file_list pats raw = .error q := by
  induction raw with
  | nil => cases hmem
  | cons e rest ih =>
    obtain ⟨q, m⟩ := e
    by_cases hq : should_ignore q pats
    · have hrest : (p, (none : Option FileRecord)) ∈ rest := by
        rcases List.mem_cons.mp hmem with h | h
        · obtain ⟨h1, h2⟩ := Prod.mk.injEq .. ▸ h
          subst h1
          rw [hq] at hig
          cases hig
        · exact h
      obtain ⟨q2, hq2⟩ := ih hrest
      exact ⟨q2, by simp [get_file_list, hq, hq2]⟩
    · cases m with
      | none => exact ⟨q, by simp [get_file_list, hq]⟩
      | some r =>
        have hrest : (p, (none : Option FileRecord)) ∈ rest := by
          rcases List.mem_cons.mp hmem with h | h
          · obtain ⟨h1, h2⟩ := Prod.mk.injEq .. ▸ h
            cases h2
          · exact h
        obtain ⟨q2, hq2⟩ := ih hrest
        exact ⟨q2, by simp [get_file_list, hq, hq2, Except.map]⟩

theorem get_file_list_race_aborts_witness :
    ∃ q, get_file_list [] [("a.txt", (none : Option FileRecord))] = .error q :=
  get_file_list_race_aborts [] [("a.txt", none)] "a.txt" (by simp) (by decide)

/-- C9: the server's `/get` and `/put` join the requested path onto the
served root with no validation and no ignore filtering — a `..` request
path resolves outside the root (here `srv/data` + `../../etc/passwd`
lands on `etc/passwd`, not under the root), and a path matching the
server's own ignore set is still served by `/get` and still written by
`/put`. -/
theorem server_endpoints_unvalidated :
    joinedTarget ["srv", "data"] "../../etc/passwd" = ["etc", "passwd"] ∧
    (["etc", "passwd"].take (["srv", "data"] : List String).length ≠ ["srv", "data"]) ∧
    get_file [(["etc", "passwd"], "root:x:0:0")] ["srv", "data"] "../../etc/passwd"
      = (200, "root:x:0:0") ∧
    lookupContent (put_file [] ["srv", "data"] "../../etc/passwd" "evil") ["etc", "passwd"]
      = some "evil" ∧
    should_ignore "secret.tmp" ["*.tmp"] = true ∧
    get_file [(["srv", "data", "secret.tmp"], "topsecret")] ["srv", "data"] "secret.tmp"
      = (200, "topsecret") := by
  exact ⟨rfl, by decide, rfl, rfl, by decide, rfl⟩

/-- C10: fetching a path the peer no longer has yields a status-200
response whose body is the JSON text `{"error": "file not found"}`, and
`download_file` writes that body verbatim to the local path, creating or
overwriting the local file with the error message. -/
theorem download_writes_not_found_body (fs : ContentFS) (root : List String) (path : String)
    (localFs : ContentFS) (localTarget : List String)
    (h : lookupContent fs (joinedTarget root path) = none) :
    get_file fs root path = (200, notFoundBody) ∧
    lookupContent (download_file fs root path localFs localTarget) localTarget
      = some notFoundBody := by
  constructor
  · simp [get_file, h]
  · unfold download_file
    rw [show (get_file fs root path).2 = notFoundBody by simp [get_file, h]]
    exact lookupContent_setContent_self localFs localTarget notFoundBody

theorem download_writes_not_found_body_witness :
    get_file [] ["srv"] "gone.txt" = (200, notFoundBody) ∧
    lookupContent (download_file [] ["srv"] "gone.txt" [] ["home", "gone.txt"])
      ["home", "gone.txt"] = some notFoundBody :=
  download_writes_not_found_body [] ["srv"] "gone.txt" [] ["home", "gone.txt"] rfl

/-- C2: a path matching the ignore set never appears as a key in a
snapshot built by `get_file_list`; a sync pass never decides any action
for it (neither upload/upload_new nor download/download_new, whatever
either side holds); and no run ever executes a transfer for it. -/
theorem ignored_paths_never_synced (pats : List String) (p : String)
    (hig : should_ignore p pats = true) :
    (∀ (raw : RawTree) (s : Tree), get_file_list pats raw = .ok s → lookupRec s p = none) ∧
    (∀ (lf pf : Tree) (a : String), (p, a) ∉ decideActions lf pf pats) ∧
    (∀ (now : Nat) (fail : String → Bool) (localT peerT : Tree)
        (resp : Except String Tree) (res : SyncResult),
      sync_with_peer now fail localT peerT resp pats = .ok res →
      ∀ a, (p, a) ∉ res.executed) := by
  have hdec : ∀ (lf pf : Tree) (a : String), (p, a) ∉ decideActions lf pf pats := by
    intro lf pf a hmem
    rw [mem_decideActions] at hmem
    rw [hig] at hmem
    cases hmem.2.1
  refine ⟨?_, hdec, ?_⟩
  · intro raw
    induction raw with
    | nil =>
      intro s hs
      injection hs with hs
      rw [← hs]
      rfl
    | cons e rest ih =>
      obtain ⟨q, m⟩ := e
      intro s hs
      by_cases hq : should_ignore q pats
      · rw [show get_file_list pats ((q, m) :: rest) = get_file_list pats rest by
          simp [get_file_list, hq]] at hs
        exact ih s hs
      · cases m with
        | none =>
          rw [show get_file_list pats ((q, none) :: rest) = .error q by
            simp [get_file_list, hq]] at hs
          exact Except.noConfusion hs
        | some r =>
          rw [show get_file_list pats ((q, some r) :: rest)
              = (get_file_list pats rest).map (fun l => (q, r) :: l) by
            simp [get_file_list, hq]] at hs
          cases hrec : get_file_list pats rest with
          | error e2 => rw [hrec] at hs; exact Except.noConfusion hs
          | ok s2 =>
            rw [hrec] at hs
            injection hs with hs
            rw [← hs, lookupRec_cons,
              if_neg (by intro hqp; apply hq; rw [show q = p from hqp]; exact hig)]
            exact ih s2 hrec
  · intro now fail localT peerT resp res hrun a hmem
    simp only [sync_with_peer, get_file_list_lift] at hrun
    cases resp with
    | error e =>
      injection hrun with hrun
      rw [← hrun] at hmem
      simp at hmem
    | ok pf =>
      injection hrun with hrun
      rw [← hrun] at hmem
      have hm2 := execActions_executed_mem now fail _ _ _ hmem
      exact hdec _ _ a hm2

theorem ignored_paths_never_synced_witness :
    lookupRec [] "x.tmp" = none ∧
    ("x.tmp", "upload_new") ∉ decideActions [("x.tmp", ⟨1, 1⟩)] [] ["*.tmp"] :=
  ⟨(ignored_paths_never_synced ["*.tmp"] "x.tmp" (by decide)).1
      [("x.tmp", some ⟨1, 1⟩)] [] rfl,
   (ignored_paths_never_synced ["*.tmp"] "x.tmp" (by decide)).2.1
      [("x.tmp", ⟨1, 1⟩)] [] "upload_new"⟩

/-- Execution stops at the first failing transfer: the prefix before it
runs, the failing action and everything after it do not. -/
theorem execActions_append_fail (now : Nat) (fail : String → Bool) :
    ∀ (l1 : List (String × String)) (st : Tree × Tree) (p a : String)
      (l2 : List (String × String)),
      (∀ x ∈ l1, fail x.1 = false) → fail p = true →
      execActions now fail st (l1 ++ (p, a) :: l2) =
        (execList now st l1, l1, some p) := by
  intro l1
  induction l1 with
  | nil =>
    intro st p a l2 hok hf
    simp [execActions, execList, hf]
  | cons q rest ih =>
    intro st p a l2 hok hf
    have hq : fail q.1 = false := hok q (List.mem_cons_self _ _)
    simp only [List.cons_append, execActions, hq, Bool.false_eq_true, ite_false, if_neg,
      List.append_eq]
    rw [ih (execOne now st q) p a l2 (fun x hx => hok x (List.mem_cons_of_mem _ hx)) hf]
    simp [execList]

/-- C6 counterexample: per-file transfer failures are **not** isolated.
Two uploads are decided; the first one's failure leaves the run with
zero executed transfers (`b.txt` is never uploaded, the peer tree stays
empty), the exception propagates out of `sync_with_peer`
(`transfer_error`), and no per-run summary exists anywhere in the
source. -/
theorem transfer_failure_aborts_counterexample :
    decideActions [("a.txt", ⟨1, 100⟩), ("b.txt", ⟨1, 100⟩)] [] []
      = [("a.txt", "upload_new"), ("b.txt", "upload_new")] ∧
    sync_with_peer 200 (fun q => q == "a.txt")
        [("a.txt", ⟨1, 100⟩), ("b.txt", ⟨1, 100⟩)] [] (.ok []) []
      = .ok ⟨[("a.txt", ⟨1, 100⟩), ("b.txt", ⟨1, 100⟩)], [], [], false, some "a.txt"⟩ :=
  ⟨rfl, rfl⟩

/-- C6 (amended): when an individual transfer for a path fails, the
exception raises out of the run: the decided actions before it have
executed, the failing path's action and every remaining action are
abandoned, and no per-run summary is produced — failures are **not**
recorded per-path with the run continuing. -/
theorem transfer_failure_aborts_run (now : Nat) (fail : String → Bool)
    (localT peerT pf : Tree) (pats : List String)
    (l1 l2 : List (String × String)) (p a : String)
    (hdec : decideActions (filterIgnored localT pats) pf pats = l1 ++ (p, a) :: l2)
    (hok : ∀ x ∈ l1, fail x.1 = false) (hf : fail p = true) :
    sync_with_peer now fail localT peerT (.ok pf) pats =
      .ok ⟨(execList now (localT, peerT) l1).1, (execList now (localT, peerT) l1).2,
        l1, false, some p⟩ := by
  simp only [sync_with_peer, get_file_list_lift]
  rw [hdec, execActions_append_fail now fail l1 (localT, peerT) p a l2 hok hf]

/-- With no transfer failing, `execActions` is the plain fold of the
per-action effect over the whole decided list. -/
theorem execActions_nofail (now : Nat) :
    ∀ (l : List (String × String)) (st : Tree × Tree),
      execActions now (fun _ => false) st l = (execList now st l, l, none) := by
  intro l
  induction l with
  | nil => intro st; simp [execActions, execList]
  | cons pa rest ih =>
    intro st
    simp only [execActions, Bool.false_eq_true, ite_false, if_neg]
    rw [ih]
    simp [execList]

/-- Executing an action for one path never touches any other path. -/
theorem execOne_lookup_other (now : Nat) (st : Tree × Tree) (pa : String × String)
    (q : String) (hq : q ≠ pa.1) :
    lookupRec (execOne now st pa).1 q = lookupRec st.1 q ∧
    lookupRec (execOne now st pa).2 q = lookupRec st.2 q := by
  unfold execOne
  by_cases hdl : pa.2 = "download" ∨ pa.2 = "download_new"
  · rw [if_pos hdl]
    cases hpk : lookupRec st.2 pa.1 <;>
      exact ⟨lookupRec_setFile_other _ _ _ _ hq, rfl⟩
  · rw [if_neg hdl]
    cases hpk : lookupRec st.1 pa.1 with
    | none => exact ⟨rfl, rfl⟩
    | some r => exact ⟨rfl, lookupRec_setFile_other _ _ _ _ hq⟩

/-- A fold of actions over other paths preserves a path's lookups. -/
theorem execList_preserve (now : Nat) (q : String) :
    ∀ (l : List (String × String)) (st : Tree × Tree),
      (∀ x ∈ l, x.1 ≠ q) →
      lookupRec (execList now st l).1 q = lookupRec st.1 q ∧
      lookupRec (execList now st l).2 q = lookupRec st.2 q := by
  intro l
  induction l with
  | nil => intro st h; exact ⟨rfl, rfl⟩
  | cons pa rest ih =>
    intro st h
    have hq : q ≠ pa.1 := fun he => h pa (List.mem_cons_self _ _) he.symm
    have h1 := execOne_lookup_other now st pa q hq
    have h2 := ih (execOne now st pa) (fun x hx => h x (List.mem_cons_of_mem _ hx))
    unfold execList at h2 ⊢
    rw [List.foldl_cons]
    exact ⟨h2.1.trans h1.1, h2.2.trans h1.2⟩

/-- Mapping the key back out of a key-preserving `filterMap` gives a
sublist of the input. -/
theorem filterMap_map_fst_sublist {α β : Type} (f : α → Option β) (g : β → α)
    (hf : ∀ x y, f x = some y → g y = x) :
    ∀ l : List α, ((l.filterMap f).map g).Sublist l := by
  intro l
  induction l with
  | nil => simp
  | cons x rest ih =>
    rw [List.filterMap_cons]
    cases hx : f x with
    | none => exact ih.cons x
    | some y =>
      rw [List.map_cons, hf x y hx]
      exact ih.cons₂ x

/-- The union path list repeats no path when neither snapshot does. -/
theorem unionPaths_nodup (lf pf : Tree) (h1 : (keys lf).Nodup) (h2 : (keys pf).Nodup) :
    (unionPaths lf pf).Nodup := by
  unfold unionPaths
  refine List.Nodup.append h1 (h2.filter _) ?_
  intro q hq hq2
  rw [List.mem_filter] at hq2
  have : (keys lf).contains q = false := by
    rcases hcont : (keys lf).contains q with _ | _
    · rfl
    · rw [hcont] at hq2
      simp at hq2
  rw [List.contains_eq_any_beq] at this
  have : q ∉ keys lf := by
    intro hmem
    rw [List.any_eq_false] at this
    have := this q hmem
    simp at this
  exact this hq

/-- A path is in the union iff it is in either snapshot. -/
theorem mem_unionPaths (lf pf : Tree) (p : String) :
    p ∈ unionPaths lf pf ↔ p ∈ keys lf ∨ p ∈ keys pf := by
  unfold unionPaths
  rw [List.mem_append, List.mem_filter]
  constructor
  · rintro (h | ⟨h, -⟩)
    · exact Or.inl h
    · exact Or.inr h
  · rintro (h | h)
    · exact Or.inl h
    · by_cases hm : p ∈ keys lf
      · exact Or.inl hm
      · refine Or.inr ⟨h, ?_⟩
        simp [List.contains_eq_any_beq, List.any_eq_false]
        exact hm

/-- The decided action list carries each path at most once when both
snapshots have distinct keys. -/
theorem decideActions_paths_nodup (lf pf : Tree) (pats : List String)
    (h : (unionPaths lf pf).Nodup) :
    ((decideActions lf pf pats).map Prod.fst).Nodup := by
  refine List.Nodup.sublist ?_ h
  unfold decideActions
  apply filterMap_map_fst_sublist
  intro x y hf
  by_cases hig : should_ignore x pats
  · simp [hig] at hf
  · rw [if_neg (by simp [hig])] at hf
    rw [Option.map_eq_some'] at hf
    obtain ⟨b, -, hqb⟩ := hf
    rw [← hqb]

/-- Key lists only shrink under ignore filtering. -/
theorem keys_filterIgnored_sublist (t : Tree) (pats : List String) :
    (keys (filterIgnored t pats)).Sublist (keys t) :=
  List.Sublist.map _ (List.filter_sublist t)

/-- A key held in a tree has a record. -/
theorem mem_keys_lookup (t : Tree) (p : String) (h : p ∈ keys t) :
    ∃ r, lookupRec t p = some r := by
  induction t with
  | nil => cases h
  | cons e rest ih =>
    rw [keys, List.map_cons, List.mem_cons] at h
    by_cases he : e.1 = p
    · exact ⟨e.2, by rw [lookupRec_cons, if_pos he]⟩
    · rcases h with h | h
      · exact absurd h.symm he
      · obtain ⟨r, hr⟩ := ih h
        exact ⟨r, by rw [lookupRec_cons, if_neg he, hr]⟩

/-- Effect of a failure-free pass on the path of one decided action
(each path decided at most once): a download leaves the local record
stamped with the transfer time `now` and the peer record untouched; an
upload leaves the local record untouched and stamps the peer record
with `now` and the local size. -/
theorem execList_effect (now : Nat) :
    ∀ (l : List (String × String)) (st : Tree × Tree) (p a : String),
      (p, a) ∈ l → (l.map Prod.fst).Nodup →
      ((a = "download" ∨ a = "download_new") →
        (∃ s, lookupRec (execList now st l).1 p = some ⟨s, now⟩) ∧
        lookupRec (execList now st l).2 p = lookupRec st.2 p) ∧
      ((a = "upload" ∨ a = "upload_new") →
        lookupRec (execList now st l).1 p = lookupRec st.1 p ∧
        ∀ r, lookupRec st.1 p = some r →
          lookupRec (execList now st l).2 p = some ⟨r.size, now⟩) := by
  intro l
  induction l with
  | nil => intro st p a hmem; cases hmem
  | cons pa rest ih =>
    intro st p a hmem hnd
    rw [List.map_cons, List.nodup_cons] at hnd
    obtain ⟨hnotin, hndrest⟩ := hnd
    have hfold : execList now st (pa :: rest) = execList now (execOne now st pa) rest := by
      unfold execList
      rw [List.foldl_cons]
    rcases List.mem_cons.mp hmem with heq | hmem2
    · cases heq
      have hne : ∀ x ∈ rest, x.1 ≠ p := by
        intro x hx hxp
        apply hnotin
        show p ∈ rest.map Prod.fst
        rw [← hxp]
        exact List.mem_map_of_mem _ hx
      have hpres := execList_preserve now p rest (execOne now st (p, a)) hne
      constructor
      · intro ha
        rw [hfold]
        refine ⟨?_, ?_⟩
        · rw [hpres.1]
          simp only [execOne]
          rw [if_pos ha]
          cases hpk : lookupRec st.2 p with
          | some r => exact ⟨r.size, lookupRec_setFile_self _ _ _⟩
          | none => exact ⟨notFoundBody.length, lookupRec_setFile_self _ _ _⟩
        · rw [hpres.2]
          simp only [execOne]
          rw [if_pos ha]
          cases hpk : lookupRec st.2 p <;> exact hpk
      · intro ha
        have hneq : ¬((p, a).2 = "download" ∨ (p, a).2 = "download_new") := by
          rcases ha with rfl | rfl
          · exact (by decide : ¬("upload" = "download" ∨ "upload" = "download_new"))
          · exact (by decide : ¬("upload_new" = "download" ∨ "upload_new" = "download_new"))
        rw [hfold]
        constructor
        · rw [hpres.1]
          simp only [execOne]
          rw [if_neg hneq]
          cases hpk : lookupRec st.1 p <;> exact hpk
        · intro r hr
          rw [hpres.2]
          simp only [execOne]
          rw [if_neg hneq, hr]
          exact lookupRec_setFile_self _ _ _
    · have hpa_ne : pa.1 ≠ p := by
        intro he
        apply hnotin
        rw [he]
        exact List.mem_map_of_mem _ hmem2
      have h1 := execOne_lookup_other now st pa p (Ne.symm hpa_ne)
      have ih2 := ih (execOne now st pa) p a hmem2 hndrest
      rw [hfold]
      constructor
      · intro ha
        obtain ⟨hex, hpe⟩ := ih2.1 ha
        exact ⟨hex, hpe.trans h1.2⟩
      · intro ha
        obtain ⟨hl, hpe⟩ := ih2.2 ha
        exact ⟨hl.trans h1.1, fun r hr => hpe r (h1.1.trans hr)⟩

/-- C4 counterexample: one full failure-free pass is **not** idempotent.
Local has `a.txt` (mtime 100), the peer lacks it; the pass uploads it
and the peer stamps its own write time 200 (`put_file` does not
preserve the source mtime), so rebuilding both snapshots and
reconciling decides a `download` — not zero non-skip actions. -/
theorem sync_pass_not_idempotent_counterexample :
    sync_with_peer 200 (fun _ => false) [("a.txt", ⟨1, 100⟩)] [] (.ok []) [] =
      .ok ⟨[("a.txt", ⟨1, 100⟩)], [("a.txt", ⟨1, 200⟩)], [("a.txt", "upload_new")],
        false, none⟩ ∧
    decideActions (filterIgnored [("a.txt", ⟨1, 100⟩)] [])
        (filterIgnored [("a.txt", ⟨1, 200⟩)] []) [] = [("a.txt", "download")] :=
  ⟨rfl, rfl⟩

/-- C4 (amended): transfers stamp the destination with the receipt time
`now` (later than every pre-existing mtime), so each transferred path
comes back as a non-skip (reverse-direction) action on the second run;
a full failure-free pass is followed by a second run with zero non-skip
actions **iff** the first pass already decided zero actions. -/
theorem sync_pass_second_run_iff (now : Nat) (localT peerT : Tree) (pats : List String)
    (hnodl : (keys localT).Nodup) (hnodp : (keys peerT).Nodup)
    (hmtl : ∀ e ∈ localT, e.2.mtime < now) (hmtp : ∀ e ∈ peerT, e.2.mtime < now) :
    ∃ res : SyncResult,
      sync_with_peer now (fun _ => false) localT peerT (.ok (filterIgnored peerT pats)) pats
        = .ok res ∧
      res.transfer_error = none ∧
      (decideActions (filterIgnored res.local_tree pats) (filterIgnored res.peer_tree pats)
          pats = [] ↔
        decideActions (filterIgnored localT pats) (filterIgnored peerT pats) pats = []) := by
  refine ⟨⟨(execList now (localT, peerT)
      (decideActions (filterIgnored localT pats) (filterIgnored peerT pats) pats)).1,
    (execList now (localT, peerT)
      (decideActions (filterIgnored localT pats) (filterIgnored peerT pats) pats)).2,
    decideActions (filterIgnored localT pats) (filterIgnored peerT pats) pats,
    false, none⟩, ?_, rfl, ?_⟩
  · simp only [sync_with_peer, get_file_list_lift]
    rw [execActions_nofail]
  · dsimp only
    set lf := filterIgnored localT pats with hlf
    set pf := filterIgnored peerT pats with hpf
    set A := decideActions lf pf pats with hA2
    set fin := execList now (localT, peerT) A with hfin
    constructor
    · intro hnew
      by_contra hAne
      obtain ⟨pa, hpa⟩ := List.exists_mem_of_ne_nil _ hAne
      obtain ⟨p, a⟩ := pa
      obtain ⟨hpu, hig, hdet⟩ := (mem_decideActions lf pf pats p a).mp hpa
      rw [hlf, lookupRec_filterIgnored, if_neg (by simp [hig])] at hdet
      rw [hpf, lookupRec_filterIgnored, if_neg (by simp [hig])] at hdet
      have hndu : (unionPaths lf pf).Nodup :=
        unionPaths_nodup lf pf
          (List.Nodup.sublist (by rw [hlf]; exact keys_filterIgnored_sublist localT pats) hnodl)
          (List.Nodup.sublist (by rw [hpf]; exact keys_filterIgnored_sublist peerT pats) hnodp)
      have hndA : (A.map Prod.fst).Nodup := by
        rw [hA2]
        exact decideActions_paths_nodup lf pf pats hndu
      have heff := execList_effect now A (localT, peerT) p a hpa hndA
      rw [← hfin] at heff
      cases hl : lookupRec localT p with
      | none =>
        cases hp : lookupRec peerT p with
        | none =>
          rw [hl, hp] at hdet
          simp [determine_action] at hdet
        | some p0 =>
          rw [hl, hp] at hdet
          simp only [determine_action, Option.some.injEq] at hdet
          subst hdet
          obtain ⟨⟨s, hfin1⟩, hfin2⟩ := heff.1 (Or.inr rfl)
          have hfin2' : lookupRec fin.2 p = some p0 := by
            rw [hfin2]
            exact hp
          have hp0now : p0.mtime < now := hmtp (p, p0) (lookupRec_some_mem peerT p p0 hp)
          have hmem2 : (p, "upload") ∈ decideActions (filterIgnored fin.1 pats)
              (filterIgnored fin.2 pats) pats := by
            rw [mem_decideActions]
            refine ⟨?_, hig, ?_⟩
            · rw [mem_unionPaths]
              refine Or.inl (lookupRec_some_mem_keys _ p ⟨s, now⟩ ?_)
              rw [lookupRec_filterIgnored, if_neg (by simp [hig])]
              exact hfin1
            · rw [lookupRec_filterIgnored, if_neg (by simp [hig]),
                lookupRec_filterIgnored, if_neg (by simp [hig]), hfin1, hfin2']
              simp [determine_action, hp0now, Nat.lt_asymm hp0now]
          rw [hnew] at hmem2
          cases hmem2
      | some l0 =>
        cases hp : lookupRec peerT p with
        | none =>
          rw [hl, hp] at hdet
          simp only [determine_action, Option.some.injEq] at hdet
          subst hdet
          obtain ⟨hl1, hl2⟩ := heff.2 (Or.inr rfl)
          have hfin1 : lookupRec fin.1 p = some l0 := by
            rw [hl1]
            exact hl
          have hfin2 : lookupRec fin.2 p = some ⟨l0.size, now⟩ := hl2 l0 hl
          have hl0now : l0.mtime < now := hmtl (p, l0) (lookupRec_some_mem localT p l0 hl)
          have hmem2 : (p, "download") ∈ decideActions (filterIgnored fin.1 pats)
              (filterIgnored fin.2 pats) pats := by
            rw [mem_decideActions]
            refine ⟨?_, hig, ?_⟩
            · rw [mem_unionPaths]
              refine Or.inl (lookupRec_some_mem_keys _ p l0 ?_)
              rw [lookupRec_filterIgnored, if_neg (by simp [hig])]
              exact hfin1
            · rw [lookupRec_filterIgnored, if_neg (by simp [hig]),
                lookupRec_filterIgnored, if_neg (by simp [hig]), hfin1, hfin2]
              simp [determine_action, hl0now]
          rw [hnew] at hmem2
          cases hmem2
        | some p0 =>
          rw [hl, hp] at hdet
          rcases Nat.lt_trichotomy l0.mtime p0.mtime with hcmp | hcmp | hcmp
          · simp only [determine_action, gt_iff_lt, hcmp, if_pos, ite_true,
              Option.some.injEq] at hdet
            subst hdet
            obtain ⟨⟨s, hfin1⟩, hfin2⟩ := heff.1 (Or.inl rfl)
            have hfin2' : lookupRec fin.2 p = some p0 := by
              rw [hfin2]
              exact hp
            have hp0now : p0.mtime < now := hmtp (p, p0) (lookupRec_some_mem peerT p p0 hp)
            have hmem2 : (p, "upload") ∈ decideActions (filterIgnored fin.1 pats)
                (filterIgnored fin.2 pats) pats := by
              rw [mem_decideActions]
              refine ⟨?_, hig, ?_⟩
              · rw [mem_unionPaths]
                refine Or.inl (lookupRec_some_mem_keys _ p ⟨s, now⟩ ?_)
                rw [lookupRec_filterIgnored, if_neg (by simp [hig])]
                exact hfin1
              · rw [lookupRec_filterIgnored, if_neg (by simp [hig]),
                  lookupRec_filterIgnored, if_neg (by simp [hig]), hfin1, hfin2']
                simp [determine_action, hp0now, Nat.lt_asymm hp0now]
            rw [hnew] at hmem2
            cases hmem2
          · simp [determine_action, hcmp, Nat.lt_irrefl] at hdet
          · have hncmp : ¬l0.mtime < p0.mtime := Nat.lt_asymm hcmp
            simp only [determine_action, gt_iff_lt, hcmp, hncmp, ite_true, ite_false,
              if_neg, if_pos, Option.some.injEq] at hdet
            subst hdet
            obtain ⟨hl1, hl2⟩ := heff.2 (Or.inl rfl)
            have hfin1 : lookupRec fin.1 p = some l0 := by
              rw [hl1]
              exact hl
            have hfin2 : lookupRec fin.2 p = some ⟨l0.size, now⟩ := hl2 l0 hl
            have hl0now : l0.mtime < now := hmtl (p, l0) (lookupRec_some_mem localT p l0 hl)
            have hmem2 : (p, "download") ∈ decideActions (filterIgnored fin.1 pats)
                (filterIgnored fin.2 pats) pats := by
              rw [mem_decideActions]
              refine ⟨?_, hig, ?_⟩
              · rw [mem_unionPaths]
                refine Or.inl (lookupRec_some_mem_keys _ p l0 ?_)
                rw [lookupRec_filterIgnored, if_neg (by simp [hig])]
                exact hfin1
              · rw [lookupRec_filterIgnored, if_neg (by simp [hig]),
                  lookupRec_filterIgnored, if_neg (by simp [hig]), hfin1, hfin2]
                simp [determine_action, hl0now]
            rw [hnew] at hmem2
            cases hmem2
    · intro hA0
      have hfin_eq : fin = (localT, peerT) := by
        rw [hfin, hA0]
        rfl
      rw [hfin_eq]
      exact hA0

theorem sync_pass_second_run_iff_witness :
    ∃ res : SyncResult,
      sync_with_peer 200 (fun _ => false) [("a.txt", ⟨1, 100⟩)] [("a.txt", ⟨2, 100⟩)]
        (.ok (filterIgnored [("a.txt", ⟨2, 100⟩)] [])) [] = .ok res ∧
      res.transfer_error = none ∧
      (decideActions (filterIgnored res.local_tree []) (filterIgnored res.peer_tree []) []
          = [] ↔
        decideActions (filterIgnored [("a.txt", ⟨1, 100⟩)] [])
          (filterIgnored [("a.txt", ⟨2, 100⟩)] []) [] = []) :=
  sync_pass_second_run_iff 200 [("a.txt", ⟨1, 100⟩)] [("a.txt", ⟨2, 100⟩)] []
    (by decide) (by decide) (by decide) (by decide)

theorem transfer_failure_aborts_run_witness :
    sync_with_peer 200 (fun q => q == "b.txt")
        [("a.txt", ⟨1, 100⟩), ("b.txt", ⟨1, 100⟩)] [] (.ok []) [] =
      .ok ⟨(execList 200 ([("a.txt", ⟨1, 100⟩), ("b.txt", ⟨1, 100⟩)], [])
          [("a.txt", "upload_new")]).1,
        (execList 200 ([("a.txt", ⟨1, 100⟩), ("b.txt", ⟨1, 100⟩)], [])
          [("a.txt", "upload_new")]).2,
        [("a.txt", "upload_new")], false, some "b.txt"⟩ :=
  transfer_failure_aborts_run 200 (fun q => q == "b.txt")
    [("a.txt", ⟨1, 100⟩), ("b.txt", ⟨1, 100⟩)] [] [] []
    [("a.txt", "upload_new")] [] "b.txt" "upload_new" rfl (by decide) (by decide)

end Syncer
